import Mathlib

/-!
Verification of the ft.dk_video segment downloader (`ft.dk_video.py`).

The Python source is shallowly embedded: strings are Lean `String`s
manipulated through structural functions on their character lists
(Python's built-in string methods are re-implemented so that the kernel
can evaluate them), Python floats are modelled as exact rationals `ℚ`,
dictionaries with optional keys are records of `Option` fields (a
missing key access is a `KeyError`), and fallible code returns `Except`.
Network and subprocess effects are passed in as explicit environment
data.
-/

set_option maxRecDepth 4000

/-- Splits a character list at every occurrence of `c`.
Models Python `str.split(sep)` for a one-character separator:
`splitOnChar c []` is `[[]]`, matching `''.split(sep) == ['']`. -/
def splitOnChar (c : Char) : List Char → List (List Char)
  | [] => [[]]
  | x :: xs =>
    match splitOnChar c xs with
    | [] => if x = c then [[], []] else [[x]]
    | y :: ys => if x = c then [] :: y :: ys else (x :: y) :: ys

/-- Python `s.split(sep)` for a one-character separator, on `String`. -/
def pySplit (c : Char) (s : String) : List String :=
  (splitOnChar c s.data).map (fun l => String.mk l)

/-- Python `s.splitlines()` restricted to `\n` line terminators: split on
`\n` and drop the empty piece after a trailing `\n`; `''` gives `[]`. -/
def splitLines (s : String) : List String :=
  match s.data with
  | [] => []
  | l =>
    let parts := splitOnChar '\n' l
    (if l.getLast? = some '\n' then parts.dropLast else parts).map
      (fun cs => String.mk cs)

/-- Python `s.startswith(p)`. -/
def pyStartsWith (s p : String) : Bool :=
  p.data.isPrefixOf s.data

/-- Python `s.strip()`: remove leading and trailing whitespace. -/
def pyStrip (s : String) : String :=
  String.mk
    (((s.data.dropWhile Char.isWhitespace).reverse.dropWhile
        Char.isWhitespace).reverse)

/-- Numeric value of a list of decimal digit characters. -/
def natOfDigits (l : List Char) : ℕ :=
  l.foldl (fun n c => n * 10 + (c.toNat - '0'.toNat)) 0

/-- Models Python's built-in `float(s)` on ordinary decimal literals:
optional surrounding whitespace, an optional sign, then digits with an
optional decimal point (at least one digit overall). Exponents,
`inf`/`nan` and underscore separators are not modelled. `none` models a
raised `ValueError`. -/
def pyFloat? (s : String) : Option ℚ :=
  let l := (pyStrip s).data
  let signed : ℚ × List Char :=
    match l with
    | '+' :: rest => (1, rest)
    | '-' :: rest => (-1, rest)
    | _ => (1, l)
  let intPart := signed.2.takeWhile Char.isDigit
  let afterInt := signed.2.dropWhile Char.isDigit
  match afterInt with
  | [] =>
    if intPart.isEmpty then none
    else some (signed.1 * (natOfDigits intPart : ℚ))
  | '.' :: frac =>
    let fracPart := frac.takeWhile Char.isDigit
    let afterFrac := frac.dropWhile Char.isDigit
    if afterFrac.isEmpty ∧ (intPart.isEmpty → ¬ fracPart.isEmpty) then
      some (signed.1 *
        ((natOfDigits intPart : ℚ) +
          (natOfDigits fracPart : ℚ) / (10 : ℚ) ^ fracPart.length))
    else none
  | _ => none

deriving instance DecidableEq for Except

/-- A Python dict built by `parse_m3u8_file`: both keys are optional,
mirroring `current_segment = {}` receiving `'duration'` and `'url'`
entries independently. -/
structure PySegDict where
  duration? : Option ℚ
  url? : Option String
deriving DecidableEq, Repr

instance : Inhabited PySegDict := ⟨⟨none, none⟩⟩

/-- A fully-formed segment descriptor (both dict keys present). -/
structure Segment where
  url : String
  duration : ℚ
deriving DecidableEq, Repr

instance : Inhabited Segment := ⟨⟨"", 0⟩⟩

/-- The duration carried by a `#EXTINF:` line:
`float(line.split(':')[1].split(',')[0])`. -/
def extinfDuration? (line : String) : Option ℚ :=
  pyFloat? ((pySplit ',' ((pySplit ':' line).getD 1 "")).headD "")

/-- The line-scanning loop of `parse_m3u8_file`, carrying
`current_segment`. A `#EXTINF:` line whose duration field is not a
valid float raises `ValueError` (`Except.error`); any line not starting
with `#` (including an empty line) is taken as the URL completing the
current segment; other `#` lines are ignored. -/
def parseLines : List String → PySegDict → Except Unit (List PySegDict)
  | [], _ => .ok []
  | line :: rest, cur =>
    if pyStartsWith line "#EXTINF:" then
      match extinfDuration? line with
      | none => .error ()
      | some d => parseLines rest ⟨some d, cur.url?⟩
    else if pyStartsWith line "#" then
      parseLines rest cur
    else
      match parseLines rest ⟨none, none⟩ with
      | .error err => .error err
      | .ok out => .ok (⟨cur.duration?, some (pyStrip line)⟩ :: out)

/-- Embeds `parse_m3u8_file`: scan the manifest's lines collecting
segment dicts. `Except.error` models an uncaught `ValueError` escaping
the function (raised by `float` on a malformed `#EXTINF:` duration). -/
def parse_m3u8_file (m3u8_content : String) : Except Unit (List PySegDict) :=
  parseLines (splitLines m3u8_content) ⟨none, none⟩

/-- Embeds `convert_time_to_seconds`:
`h, m, s = map(float, time_str.split(':'))` then
`h * 3600 + m * 60 + s`; `Except.error` models a raised `ValueError`
(wrong field count or a field `float` rejects). -/
def convert_time_to_seconds (time_str : String) : Except Unit ℚ :=
  match pySplit ':' time_str with
  | [hs, ms, ss] =>
    match pyFloat? hs, pyFloat? ms, pyFloat? ss with
    | some h, some m, some s => .ok (h * 3600 + m * 60 + s)
    | _, _, _ => .error ()
  | _ => .error ()

/-- `segment_url.split('/')[-1].split('?')[0]`: the last path component
of a URL with any query string stripped. -/
def stripQueryLastComp (url : String) : String :=
  (pySplit '?' ((pySplit '/' url).getLastD "")).headD ""

/-- `os.path.join('segments', ...)` applied to `stripQueryLastComp`
(POSIX join; the component never contains `/`). -/
def segment_name (url : String) : String :=
  "segments/" ++ stripQueryLastComp url

/-- The selection loop of `download_segments` viewed as a pure plan
builder: walking the descriptors with the running `current_time`, skip
a segment when `current_time + duration < start`, stop when
`current_time > end` (checked after the skip test, before processing),
otherwise include it. -/
def planFrom (s e : ℚ) : ℚ → List Segment → List Segment
  | _, [] => []
  | t, seg :: rest =>
    if t + seg.duration < s then planFrom s e (t + seg.duration) rest
    else if t > e then []
    else seg :: planFrom s e (t + seg.duration) rest

/-- The download plan of `download_segments` for a numeric window,
starting from `current_time = 0.0`. -/
def downloadPlan (segs : List Segment) (s e : ℚ) : List Segment :=
  planFrom s e 0 segs

/-- The `segment_files` list built by `download_segments`: the local
file name of each planned segment, in plan order. -/
def download_segments_files (segs : List Segment) (s e : ℚ) : List String :=
  (downloadPlan segs s e).map (fun seg => segment_name seg.url)

/-- Total duration of a list of segments. -/
def sumDur (l : List Segment) : ℚ :=
  (l.map Segment.duration).sum

/-- Duration of the first segment of a plan (0 for an empty plan). -/
def planFirstDur : List Segment → ℚ
  | [] => 0
  | seg :: _ => seg.duration

/-- Duration of the last segment of a plan (0 for an empty plan). -/
def planLastDur (l : List Segment) : ℚ :=
  match l.getLast? with
  | none => 0
  | some seg => seg.duration

/-- `os.path.abspath` for a path relative to the working directory
`cwd` (no normalisation of `.`/`..` components is modelled). -/
def os_path_abspath (cwd path : String) : String :=
  cwd ++ "/" ++ path

/-- Embeds `create_concat_file`: the sequence of lines written to
`segments.txt`, one `file '<absolute path>'` line per segment file (the
file is modelled as its list of lines; each `f.write` emits exactly one
newline-terminated line). -/
def create_concat_file (cwd : String) (segment_files : List String) :
    List String :=
  segment_files.map (fun segment =>
    "file \x27" ++ os_path_abspath cwd segment ++ "\x27")

/-- The ways the program dies: the four documented error kinds, plus an
uncaught `ValueError` (bad `#EXTINF:` duration or bad time string, both
reaching the top-level handler that exits) and an uncaught `KeyError`
(dict built without a `duration`/`url` key). -/
inductive Fatal where
  | fetchFailed
  | valueErr
  | keyErr
  | segmentFetchFailed
  | muxerNotFound
deriving DecidableEq, Repr

/-- The outcomes of the program's external effects, passed in
explicitly: the manifest request, each segment request (`Except.error`
models a `requests` exception), whether the `ffmpeg` binary exists, and
the working directory. -/
structure NetEnv where
  manifest : Except Unit String
  segment : String → Except Unit String
  muxerPresent : Bool
  cwd : String

/-- `sum([segment['duration'] for segment in segment_urls])`: `none`
models a `KeyError` on a dict missing the `'duration'` key. -/
def total_duration? (segs : List PySegDict) : Option ℚ :=
  (segs.mapM PySegDict.duration?).map List.sum

/-- `segment['url']`, raising `KeyError` when absent. -/
def dictUrl (d : PySegDict) : Except Fatal String :=
  match d.url? with
  | some u => .ok u
  | none => .error .keyErr

/-- `segment['duration']`, raising `KeyError` when absent. -/
def dictDur (d : PySegDict) : Except Fatal ℚ :=
  match d.duration? with
  | some q => .ok q
  | none => .error .keyErr

/-- The download loop of `download_segments` over the parsed dicts:
reads `url` and `duration`, applies the skip and stop rules, fetches
each included segment (a failed fetch is fatal) and accumulates the
local file names in order. -/
def segLoop (env : NetEnv) (s e : ℚ) :
    ℚ → List PySegDict → Except Fatal (List String)
  | _, [] => .ok []
  | t, d :: rest =>
    match dictUrl d with
    | .error f => .error f
    | .ok url =>
      match dictDur d with
      | .error f => .error f
      | .ok dur =>
        if t + dur < s then segLoop env s e (t + dur) rest
        else if t > e then .ok []
        else
          match env.segment url with
          | .error _ => .error .segmentFetchFailed
          | .ok _ =>
            match segLoop env s e (t + dur) rest with
            | .error f => .error f
            | .ok tail => .ok (segment_name url :: tail)

/-- `start_time`/`end_time` handling in `download_segments`: `None`
gives the default, otherwise `convert_time_to_seconds` (whose
`ValueError` escapes to the top-level handler). -/
def timeOrDefault (str? : Option String) (dflt : ℚ) : Except Fatal ℚ :=
  match str? with
  | none => .ok dflt
  | some str =>
    match convert_time_to_seconds str with
    | .ok q => .ok q
    | .error _ => .error .valueErr

/-- Embeds `download_segments`: computes `total_duration` (a `KeyError`
if any dict lacks `'duration'`), resolves the window bounds, then runs
the selection/download loop from `current_time = 0.0`. -/
def download_segments (env : NetEnv) (segment_urls : List PySegDict)
    (start_time? end_time? : Option String) : Except Fatal (List String) :=
  match total_duration? segment_urls with
  | none => .error .keyErr
  | some total =>
    match timeOrDefault start_time? 0 with
    | .error f => .error f
    | .ok s =>
      match timeOrDefault end_time? total with
      | .error f => .error f
      | .ok e => segLoop env s e 0 segment_urls

/-- Embeds the `download_video` pipeline: fetch the manifest (a request
error is `FetchFailed`), parse it (a `ValueError` escapes), download
the selected segments, write the concat manifest, and invoke the muxer
(absent binary is `MuxerNotFound`). Returns the segment file list and
the concat manifest lines on success. -/
def download_video (env : NetEnv) (start_time? end_time? : Option String) :
    Except Fatal (List String × List String) :=
  match env.manifest with
  | .error _ => .error .fetchFailed
  | .ok content =>
    match parse_m3u8_file content with
    | .error _ => .error .valueErr
    | .ok segment_urls =>
      match download_segments env segment_urls start_time? end_time? with
      | .error f => .error f
      | .ok files =>
        if env.muxerPresent then .ok (files, create_concat_file env.cwd files)
        else .error .muxerNotFound

/-- The process exit status: 0 on success, 1 whenever any `Fatal`
occurs (every error path calls `sys.exit(1)` or escapes to the
top-level `except ValueError` handler, or is an uncaught exception). -/
def mainExitCode (env : NetEnv) (start_time? end_time? : Option String) : ℕ :=
  match download_video env start_time? end_time? with
  | .ok _ => 0
  | .error _ => 1

/-- The file-system contents of the `segments/` directory after the
download loop writes each planned segment in order: `contents` maps a
URL to the fetched body, and each `open(segment_name, 'wb')` write
replaces the file at that path. -/
def runDownloads (contents : String → String) (fs0 : String → Option String)
    (plan : List Segment) : String → Option String :=
  plan.foldl
    (fun fs seg p =>
      if p = segment_name seg.url then some (contents seg.url) else fs p)
    fs0


/-! ### Basic facts about the selection loop -/

theorem sumDur_nil : sumDur [] = 0 := rfl

theorem sumDur_cons (seg : Segment) (l : List Segment) :
    sumDur (seg :: l) = seg.duration + sumDur l := by
  simp [sumDur]

theorem planFrom_cons (s e t : ℚ) (seg : Segment) (rest : List Segment) :
    planFrom s e t (seg :: rest) =
      if t + seg.duration < s then planFrom s e (t + seg.duration) rest
      else if t > e then []
      else seg :: planFrom s e (t + seg.duration) rest := rfl

/-- If every segment of a prefix satisfies the skip condition at its
cumulative time, the loop drops the whole prefix and continues with the
time advanced by the prefix's total duration. -/
theorem planFrom_skip_all (s e : ℚ) :
    ∀ (pre : List Segment) (t : ℚ) (rest : List Segment),
      (∀ i (h : i < pre.length),
          t + sumDur (pre.take i) + (pre.get ⟨i, h⟩).duration < s) →
      planFrom s e t (pre ++ rest) = planFrom s e (t + sumDur pre) rest := by
  intro pre
  induction pre with
  | nil => intro t rest _; simp [sumDur_nil]
  | cons p pre ih =>
    intro t rest hskip
    have h0 : t + p.duration < s := by
      have h := hskip 0 (by simp)
      simpa [sumDur_nil] using h
    have hrec := ih (t + p.duration) rest (by
      intro i h
      have hh := hskip (i + 1) (by simpa using Nat.succ_lt_succ h)
      simpa [sumDur_cons, add_assoc] using hh)
    have harith : t + p.duration + sumDur pre = t + sumDur (p :: pre) := by
      rw [sumDur_cons]; ring
    rw [List.cons_append, planFrom_cons, if_pos h0, hrec, harith]

/-! ### C1: the stop rule -/

/-- C1: for a descriptor reached with cumulative time `t` that is not
skipped, the loop stops — excluding it and every remaining
descriptor — exactly when `t` already exceeds the window end, the
check being made before the segment is processed; moreover on three
segments of durations `[4, 4, 4]` with window `start = 5`, `end = 9`
the plan is exactly the second and third segments. -/
theorem stop_rule_checked_before_processing :
    (∀ (s e t : ℚ) (seg : Segment) (rest : List Segment),
        ¬ (t + seg.duration < s) →
        (planFrom s e t (seg :: rest) = [] ↔ t > e))
    ∧ downloadPlan [⟨"seg1.ts", 4⟩, ⟨"seg2.ts", 4⟩, ⟨"seg3.ts", 4⟩] 5 9
        = [⟨"seg2.ts", 4⟩, ⟨"seg3.ts", 4⟩] := by
  constructor
  · intro s e t seg rest hskip
    constructor
    · intro hnil
      by_contra hle
      rw [planFrom_cons, if_neg hskip, if_neg hle] at hnil
      exact List.cons_ne_nil _ _ hnil
    · intro hgt
      rw [planFrom_cons, if_neg hskip, if_pos hgt]
  · with_unfolding_all decide

theorem stop_rule_checked_before_processing_witness :
    ¬ ((8 : ℚ) + 4 < 5) ∧ (planFrom 5 7 8 [⟨"x", 4⟩] = [] ↔ (8 : ℚ) > 7) :=
  ⟨by with_unfolding_all decide,
    stop_rule_checked_before_processing.1 5 7 8 ⟨"x", 4⟩ []
      (by with_unfolding_all decide)⟩

/-! ### C2: the skip rule -/

/-- C2: a descriptor reached with cumulative time `t` is skipped — and
the time still advances by its duration, so later checks see the
cumulative duration of every preceding descriptor — precisely when
`t + duration < start`: a whole prefix satisfying the skip condition is
dropped with the time advanced by its total duration, while a
descriptor failing the condition is never silently dropped: it is
either included or the loop stops there. -/
theorem skip_rule_iff_time_advances :
    ∀ (s e t : ℚ),
      (∀ (pre rest : List Segment),
        (∀ i (h : i < pre.length),
            t + sumDur (pre.take i) + (pre.get ⟨i, h⟩).duration < s) →
        planFrom s e t (pre ++ rest) = planFrom s e (t + sumDur pre) rest)
      ∧ (∀ (seg : Segment) (rest : List Segment),
          ¬ (t + seg.duration < s) →
          planFrom s e t (seg :: rest) = [] ∨
            planFrom s e t (seg :: rest) =
              seg :: planFrom s e (t + seg.duration) rest) := by
  intro s e t
  constructor
  · intro pre rest h
    exact planFrom_skip_all s e pre t rest h
  · intro seg rest hns
    by_cases hgt : t > e
    · left; rw [planFrom_cons, if_neg hns, if_pos hgt]
    · right; rw [planFrom_cons, if_neg hns, if_neg hgt]

theorem skip_rule_iff_time_advances_witness :
    planFrom 10 20 0 ([⟨"a", 2⟩] ++ [⟨"b", 9⟩]) =
      planFrom 10 20 (0 + sumDur [⟨"a", 2⟩]) [⟨"b", 9⟩] :=
  (skip_rule_iff_time_advances 10 20 0).1 [⟨"a", 2⟩] [⟨"b", 9⟩]
    (by
      intro i h
      have hi : i = 0 := by simpa using h
      subst hi
      simp [sumDur]
      norm_num)

/-! ### C9: contiguity of the plan -/

/-- Once the running time has passed the window start, no later
segment with non-negative duration can satisfy the skip condition, so
the loop returns a prefix of the remaining descriptors. -/
theorem planFrom_take_of_start_le (s e : ℚ) :
    ∀ (segs : List Segment) (t : ℚ),
      (∀ x ∈ segs, 0 ≤ x.duration) → s ≤ t →
      ∃ k, planFrom s e t segs = segs.take k := by
  intro segs
  induction segs with
  | nil => exact fun t _ _ => ⟨0, rfl⟩
  | cons seg rest ih =>
    intro t hnn hst
    have hd : 0 ≤ seg.duration := hnn seg (List.mem_cons_self _ _)
    have hns : ¬ (t + seg.duration < s) := not_lt.mpr (by linarith)
    by_cases hgt : t > e
    · exact ⟨0, by rw [planFrom_cons, if_neg hns, if_pos hgt]; rfl⟩
    · obtain ⟨k, hk⟩ :=
        ih (t + seg.duration) (fun x hx => hnn x (List.mem_cons_of_mem _ hx))
          (by linarith)
      exact ⟨k + 1, by rw [planFrom_cons, if_neg hns, if_neg hgt, hk]; rfl⟩

/-- C9: for non-negative durations the plan is a contiguous
subsequence of the manifest: some initial descriptors are dropped,
then a consecutive block is taken, with no interior gaps. -/
theorem plan_contiguous_subsequence :
    ∀ (segs : List Segment) (s e : ℚ),
      (∀ x ∈ segs, 0 ≤ x.duration) →
      ∃ i j, downloadPlan segs s e = (segs.drop i).take j := by
  have main : ∀ (s e : ℚ) (segs : List Segment) (t : ℚ),
      (∀ x ∈ segs, 0 ≤ x.duration) →
      ∃ i j, planFrom s e t segs = (segs.drop i).take j := by
    intro s e segs
    induction segs with
    | nil => exact fun t _ => ⟨0, 0, rfl⟩
    | cons seg rest ih =>
      intro t hnn
      have htail : ∀ x ∈ rest, 0 ≤ x.duration :=
        fun x hx => hnn x (List.mem_cons_of_mem _ hx)
      by_cases hsk : t + seg.duration < s
      · obtain ⟨i, j, hij⟩ := ih (t + seg.duration) htail
        exact ⟨i + 1, j, by rw [planFrom_cons, if_pos hsk, hij]; rfl⟩
      · by_cases hgt : t > e
        · exact ⟨0, 0, by rw [planFrom_cons, if_neg hsk, if_pos hgt]; rfl⟩
        · have hse : s ≤ t + seg.duration := not_lt.mp hsk
          obtain ⟨k, hk⟩ :=
            planFrom_take_of_start_le s e rest (t + seg.duration) htail hse
          exact ⟨0, k + 1, by rw [planFrom_cons, if_neg hsk, if_neg hgt, hk]; rfl⟩
  exact fun segs s e hnn => main s e segs 0 hnn

theorem plan_contiguous_subsequence_witness :
    ∃ i j, downloadPlan [⟨"a.ts", 4⟩, ⟨"b.ts", 4⟩] 5 9 =
      ([⟨"a.ts", 4⟩, ⟨"b.ts", 4⟩].drop i).take j :=
  plan_contiguous_subsequence [⟨"a.ts", 4⟩, ⟨"b.ts", 4⟩] 5 9
    (by intro x hx; simp at hx; rcases hx with h | h <;> rw [h] <;> norm_num)

/-! ### C5: the superset-biased duration bound -/

theorem planLastDur_cons_of_ne_nil (seg : Segment) {l : List Segment}
    (h : l ≠ []) : planLastDur (seg :: l) = planLastDur l := by
  cases l with
  | nil => exact absurd rfl h
  | cons b bs => simp [planLastDur, List.getLast?]

/-- Once the running time is at least `start`, the loop's selection
adds at most `end - t` seconds plus the duration of its last included
segment (time advances by the full duration of every selected
segment and each selection happens at a time `≤ end`). -/
theorem planFrom_sum_le_of_start_le (s e : ℚ) :
    ∀ (segs : List Segment) (t : ℚ),
      (∀ x ∈ segs, 0 ≤ x.duration) → s ≤ t →
      planFrom s e t segs ≠ [] →
      sumDur (planFrom s e t segs) ≤
        e - t + planLastDur (planFrom s e t segs) := by
  intro segs
  induction segs with
  | nil => intro t _ _ hne; exact absurd rfl hne
  | cons seg rest ih =>
    intro t hnn hst hne
    have hd : 0 ≤ seg.duration := hnn seg (List.mem_cons_self _ _)
    have htail : ∀ x ∈ rest, 0 ≤ x.duration :=
      fun x hx => hnn x (List.mem_cons_of_mem _ hx)
    have hns : ¬ (t + seg.duration < s) := not_lt.mpr (by linarith)
    by_cases hgt : t > e
    · rw [planFrom_cons, if_neg hns, if_pos hgt] at hne
      exact absurd rfl hne
    · have heq : planFrom s e t (seg :: rest) =
          seg :: planFrom s e (t + seg.duration) rest := by
        rw [planFrom_cons, if_neg hns, if_neg hgt]
      rw [heq]
      by_cases hrest : planFrom s e (t + seg.duration) rest = []
      · rw [hrest]
        have hle : t ≤ e := not_lt.mp hgt
        simp [sumDur_cons, sumDur_nil, planLastDur, List.getLast?]
        linarith
      · have hrec := ih (t + seg.duration) htail (by linarith) hrest
        rw [sumDur_cons, planLastDur_cons_of_ne_nil seg hrest]
        linarith

/-- C5: for non-negative durations and `start ≤ end`, the total
duration of the planned segments exceeds the requested span
`end - start` by at most one segment duration at each boundary: it is
bounded by `(end - start)` plus the durations of the first and last
planned segments. -/
theorem plan_duration_superset_bound :
    ∀ (segs : List Segment) (s e : ℚ),
      (∀ x ∈ segs, 0 ≤ x.duration) → s ≤ e →
      sumDur (downloadPlan segs s e) ≤
        (e - s) + planFirstDur (downloadPlan segs s e) +
          planLastDur (downloadPlan segs s e) := by
  have main : ∀ (s e : ℚ) (segs : List Segment) (t : ℚ),
      (∀ x ∈ segs, 0 ≤ x.duration) → s ≤ e →
      planFrom s e t segs ≠ [] →
      sumDur (planFrom s e t segs) ≤
        (e - s) + planFirstDur (planFrom s e t segs) +
          planLastDur (planFrom s e t segs) := by
    intro s e segs
    induction segs with
    | nil => intro t _ _ hne; exact absurd rfl hne
    | cons seg rest ih =>
      intro t hnn hse hne
      have hd : 0 ≤ seg.duration := hnn seg (List.mem_cons_self _ _)
      have htail : ∀ x ∈ rest, 0 ≤ x.duration :=
        fun x hx => hnn x (List.mem_cons_of_mem _ hx)
      by_cases hsk : t + seg.duration < s
      · rw [planFrom_cons, if_pos hsk] at hne ⊢
        exact ih (t + seg.duration) htail hse hne
      · by_cases hgt : t > e
        · rw [planFrom_cons, if_neg hsk, if_pos hgt] at hne
          exact absurd rfl hne
        · have heq : planFrom s e t (seg :: rest) =
              seg :: planFrom s e (t + seg.duration) rest := by
            rw [planFrom_cons, if_neg hsk, if_neg hgt]
          rw [heq]
          have hstart : s ≤ t + seg.duration := not_lt.mp hsk
          have hle : t ≤ e := not_lt.mp hgt
          by_cases hrest : planFrom s e (t + seg.duration) rest = []
          · rw [hrest]
            simp [sumDur_cons, sumDur_nil, planFirstDur, planLastDur,
              List.getLast?]
            linarith
          · have hrec := planFrom_sum_le_of_start_le s e rest
              (t + seg.duration) htail hstart hrest
            rw [sumDur_cons, planLastDur_cons_of_ne_nil seg hrest]
            have hfst : planFirstDur
                (seg :: planFrom s e (t + seg.duration) rest) =
                  seg.duration := rfl
            rw [hfst]
            linarith
  intro segs s e hnn hse
  by_cases hp : downloadPlan segs s e = []
  · rw [hp]
    simp [sumDur_nil, planFirstDur, planLastDur, List.getLast?]
    linarith
  · exact main s e segs 0 hnn hse hp

theorem plan_duration_superset_bound_witness :
    sumDur (downloadPlan [⟨"a.ts", 4⟩, ⟨"b.ts", 4⟩, ⟨"c.ts", 4⟩] 5 9) ≤
      ((9 : ℚ) - 5) + planFirstDur (downloadPlan [⟨"a.ts", 4⟩, ⟨"b.ts", 4⟩, ⟨"c.ts", 4⟩] 5 9) +
        planLastDur (downloadPlan [⟨"a.ts", 4⟩, ⟨"b.ts", 4⟩, ⟨"c.ts", 4⟩] 5 9) :=
  plan_duration_superset_bound [⟨"a.ts", 4⟩, ⟨"b.ts", 4⟩, ⟨"c.ts", 4⟩] 5 9
    (by
      intro x hx
      simp at hx
      rcases hx with h | h | h <;> rw [h] <;> norm_num)
    (by norm_num)

/-! ### C6: time-string conversion -/

/-- C6: on exactly three colon-separated fields accepted by `float`,
`convert_time_to_seconds` returns `h*3600 + m*60 + s` (in particular
`"01:02:03" ↦ 3723` and `"00:00:00" ↦ 0`), and it raises `ValueError`
exactly when the input is not of that shape. -/
theorem convert_time_to_seconds_spec :
    (∀ (t hs ms ss : String) (h m sec : ℚ),
        pySplit ':' t = [hs, ms, ss] →
        pyFloat? hs = some h → pyFloat? ms = some m →
        pyFloat? ss = some sec →
        convert_time_to_seconds t = .ok (h * 3600 + m * 60 + sec))
    ∧ (∀ t : String,
        (¬ ∃ hs ms ss, pySplit ':' t = [hs, ms, ss] ∧
            (pyFloat? hs).isSome ∧ (pyFloat? ms).isSome ∧
            (pyFloat? ss).isSome) →
        convert_time_to_seconds t = .error ())
    ∧ convert_time_to_seconds "01:02:03" = .ok 3723
    ∧ convert_time_to_seconds "00:00:00" = .ok 0 := by
  have hok : ∀ (t hs ms ss : String) (h m sec : ℚ),
      pySplit ':' t = [hs, ms, ss] →
      pyFloat? hs = some h → pyFloat? ms = some m →
      pyFloat? ss = some sec →
      convert_time_to_seconds t = .ok (h * 3600 + m * 60 + sec) := by
    intro t hs ms ss h m sec hsp hh hm hsec
    simp [convert_time_to_seconds, hsp, hh, hm, hsec]
  refine ⟨hok, ?_, ?_, ?_⟩
  · intro t hnone
    rcases hsp : pySplit ':' t with _ | ⟨a, _ | ⟨b, _ | ⟨c, _ | ⟨d, l⟩⟩⟩⟩
    · simp [convert_time_to_seconds, hsp]
    · simp [convert_time_to_seconds, hsp]
    · simp [convert_time_to_seconds, hsp]
    · rcases ha : pyFloat? a with _ | va
      · simp [convert_time_to_seconds, hsp, ha]
      rcases hb : pyFloat? b with _ | vb
      · simp [convert_time_to_seconds, hsp, ha, hb]
      rcases hc : pyFloat? c with _ | vc
      · simp [convert_time_to_seconds, hsp, ha, hb, hc]
      exact absurd ⟨a, b, c, hsp, by rw [ha]; rfl, by rw [hb]; rfl,
        by rw [hc]; rfl⟩ hnone
    · simp [convert_time_to_seconds, hsp]
  · have h1 : pyFloat? "01" = some 1 := by with_unfolding_all decide
    have h2 : pyFloat? "02" = some 2 := by with_unfolding_all decide
    have h3 : pyFloat? "03" = some 3 := by with_unfolding_all decide
    have hsp : pySplit ':' "01:02:03" = ["01", "02", "03"] := by decide
    rw [hok "01:02:03" "01" "02" "03" 1 2 3 hsp h1 h2 h3]
    norm_num
  · have h0 : pyFloat? "00" = some 0 := by with_unfolding_all decide
    have hsp : pySplit ':' "00:00:00" = ["00", "00", "00"] := by decide
    rw [hok "00:00:00" "00" "00" "00" 0 0 0 hsp h0 h0 h0]
    norm_num

theorem convert_time_to_seconds_spec_witness :
    convert_time_to_seconds "00:01:30.5" =
      .ok ((0 : ℚ) * 3600 + 1 * 60 + 61/2) :=
  convert_time_to_seconds_spec.1 "00:01:30.5" "00" "01" "30.5" 0 1 (61/2)
    (by decide) (by with_unfolding_all decide)
    (by with_unfolding_all decide) (by with_unfolding_all decide)

/-! ### C8: the concatenation manifest mirrors the plan -/

theorem map_getD_of_lt {α β : Type} [Inhabited α] (l : List α) (f : α → β)
    (d : β) (i : ℕ) (h : i < l.length) :
    (l.map f).getD i d = f (l.getD i default) := by
  rw [List.getD_eq_getElem?_getD, List.getElem?_map,
    List.getElem?_eq_getElem h, List.getD_eq_getElem?_getD,
    List.getElem?_eq_getElem h]
  rfl

/-- C8: whenever `download_segments` succeeds with a list of `N`
segment files, the concatenation manifest has exactly `N` lines, the
`i`-th being `file '<absolute path of the i-th file>'` — same order,
no gaps. -/
theorem concat_manifest_matches_plan :
    ∀ (cwd : String) (env : NetEnv) (dicts : List PySegDict)
      (start_time? end_time? : Option String) (files : List String),
      download_segments env dicts start_time? end_time? = .ok files →
      (create_concat_file cwd files).length = files.length ∧
        ∀ i, i < files.length →
          (create_concat_file cwd files).getD i "" =
            "file \x27" ++ os_path_abspath cwd (files.getD i "") ++ "\x27" := by
  intro cwd env dicts s? e? files _
  constructor
  · simp [create_concat_file]
  · intro i hi
    rw [create_concat_file, map_getD_of_lt files _ "" i hi]
    have hdef : (default : String) = "" := rfl
    rw [hdef]

theorem concat_manifest_matches_plan_witness :
    (create_concat_file "/w" ["segments/a.ts"]).length =
        (["segments/a.ts"] : List String).length ∧
      ∀ i, i < (["segments/a.ts"] : List String).length →
        (create_concat_file "/w" ["segments/a.ts"]).getD i "" =
          "file \x27" ++
            os_path_abspath "/w" ((["segments/a.ts"] : List String).getD i "") ++
            "\x27" :=
  concat_manifest_matches_plan "/w"
    ⟨.ok "", fun _ => .ok "", true, "/w"⟩
    [⟨some 4, some "u/a.ts"⟩] none none ["segments/a.ts"]
    (by with_unfolding_all decide)

/-! ### C10: colliding local segment names -/

theorem runDownloads_cons (contents : String → String)
    (fs : String → Option String) (seg : Segment) (l : List Segment) :
    runDownloads contents fs (seg :: l) =
      runDownloads contents
        (fun p => if p = segment_name seg.url then some (contents seg.url)
          else fs p) l := rfl

theorem runDownloads_append (contents : String → String)
    (fs : String → Option String) (l1 l2 : List Segment) :
    runDownloads contents fs (l1 ++ l2) =
      runDownloads contents (runDownloads contents fs l1) l2 := by
  simp [runDownloads, List.foldl_append]

/-- A path written by none of the downloads keeps its previous
contents. -/
theorem runDownloads_not_written (contents : String → String) :
    ∀ (l : List Segment) (fs : String → Option String) (p : String),
      (∀ seg ∈ l, segment_name seg.url ≠ p) →
      runDownloads contents fs l p = fs p := by
  intro l
  induction l with
  | nil => intro fs p _; rfl
  | cons seg l ih =>
    intro fs p hmem
    rw [runDownloads_cons,
      ih _ p (fun x hx => hmem x (List.mem_cons_of_mem _ hx))]
    exact if_neg (fun hh =>
      hmem seg (List.mem_cons_self _ _) hh.symm)

/-- After the loop runs, a path holds the body fetched for the last
segment written to it. -/
theorem runDownloads_last_write (contents : String → String)
    (fs : String → Option String) (l : List Segment) (seg : Segment)
    (rest : List Segment) (p : String) (hp : p = segment_name seg.url)
    (hrest : ∀ x ∈ rest, segment_name x.url ≠ p) :
    runDownloads contents fs (l ++ seg :: rest) p =
      some (contents seg.url) := by
  rw [runDownloads_append, runDownloads_cons,
    runDownloads_not_written contents rest _ p hrest]
  simp [hp]

/-- C10: two planned descriptors whose URLs share the same last path
component (query string stripped) are written to the same local file;
the `segment_files` list and the concatenation manifest repeat that
path at both positions, and when the second is the last such write the
file ends up holding the second segment's body — the first download's
contents are overwritten. -/
theorem duplicate_names_overwrite :
    ∀ (contents : String → String) (fs0 : String → Option String)
      (cwd : String) (segs : List Segment) (s e : ℚ) (i j : ℕ),
      i < j → j < (downloadPlan segs s e).length →
      stripQueryLastComp ((downloadPlan segs s e).getD i default).url =
        stripQueryLastComp ((downloadPlan segs s e).getD j default).url →
      segment_name ((downloadPlan segs s e).getD i default).url =
          segment_name ((downloadPlan segs s e).getD j default).url
        ∧ (download_segments_files segs s e).getD i "" =
            (download_segments_files segs s e).getD j ""
        ∧ (create_concat_file cwd (download_segments_files segs s e)).getD i "" =
            (create_concat_file cwd (download_segments_files segs s e)).getD j ""
        ∧ ((∀ seg ∈ (downloadPlan segs s e).drop (j + 1),
              segment_name seg.url ≠
                segment_name ((downloadPlan segs s e).getD j default).url) →
            runDownloads contents fs0 (downloadPlan segs s e)
                (segment_name ((downloadPlan segs s e).getD j default).url) =
              some (contents ((downloadPlan segs s e).getD j default).url)) := by
  intro contents fs0 cwd segs s e i j hij hj hstrip
  have hi : i < (downloadPlan segs s e).length := lt_trans hij hj
  have hname : segment_name ((downloadPlan segs s e).getD i default).url =
      segment_name ((downloadPlan segs s e).getD j default).url := by
    rw [segment_name, segment_name, hstrip]
  have hfiles_len : (download_segments_files segs s e).length =
      (downloadPlan segs s e).length := by
    simp [download_segments_files]
  have hfile : ∀ (k : ℕ), k < (downloadPlan segs s e).length →
      (download_segments_files segs s e).getD k "" =
        segment_name ((downloadPlan segs s e).getD k default).url := by
    intro k hk
    rw [download_segments_files, map_getD_of_lt _ _ "" k hk]
  have hfeq : (download_segments_files segs s e).getD i "" =
      (download_segments_files segs s e).getD j "" := by
    rw [hfile i hi, hfile j hj, hname]
  refine ⟨hname, hfeq, ?_, ?_⟩
  · rw [create_concat_file,
      map_getD_of_lt _ _ "" i (by rw [hfiles_len]; exact hi),
      map_getD_of_lt _ _ "" j (by rw [hfiles_len]; exact hj)]
    have hdef : (default : String) = "" := rfl
    rw [hdef, hfeq]
  · intro hlast
    have hgetj : (downloadPlan segs s e).getD j default =
        (downloadPlan segs s e).get ⟨j, hj⟩ := by
      rw [List.getD_eq_getElem?_getD, List.getElem?_eq_getElem hj]
      rfl
    have hsplit : downloadPlan segs s e =
        (downloadPlan segs s e).take j ++
          (downloadPlan segs s e).get ⟨j, hj⟩ ::
            (downloadPlan segs s e).drop (j + 1) := by
      conv => lhs; rw [← List.take_append_drop j (downloadPlan segs s e)]
      rw [List.drop_eq_getElem_cons hj]
      rfl
    have hrest : ∀ x ∈ (downloadPlan segs s e).drop (j + 1),
        segment_name x.url ≠
          segment_name ((downloadPlan segs s e).get ⟨j, hj⟩).url := by
      intro x hx
      have hx2 := hlast x hx
      rw [hgetj] at hx2
      exact hx2
    have happ := runDownloads_last_write contents fs0
      ((downloadPlan segs s e).take j)
      ((downloadPlan segs s e).get ⟨j, hj⟩)
      ((downloadPlan segs s e).drop (j + 1))
      (segment_name ((downloadPlan segs s e).get ⟨j, hj⟩).url) rfl hrest
    rw [← hsplit] at happ
    rw [hgetj]
    exact happ

theorem duplicate_names_overwrite_witness :
    runDownloads (fun u => u) (fun _ => none)
        (downloadPlan [⟨"http://h/a/seg.ts?x=1", 1⟩, ⟨"http://h/b/seg.ts", 2⟩]
          0 10)
        (segment_name
          ((downloadPlan [⟨"http://h/a/seg.ts?x=1", 1⟩, ⟨"http://h/b/seg.ts", 2⟩]
            0 10).getD 1 default).url) =
      some ((fun u => u)
        ((downloadPlan [⟨"http://h/a/seg.ts?x=1", 1⟩, ⟨"http://h/b/seg.ts", 2⟩]
          0 10).getD 1 default).url) :=
  (duplicate_names_overwrite (fun u => u) (fun _ => none) "/w"
    [⟨"http://h/a/seg.ts?x=1", 1⟩, ⟨"http://h/b/seg.ts", 2⟩] 0 10 0 1
    (by decide) (by with_unfolding_all decide)
    (by with_unfolding_all decide)).2.2.2
    (by with_unfolding_all decide)

/-! ### C3: a URL line with no preceding duration tag -/

/-- C3: on a manifest consisting of a bare URL line, parsing succeeds
but the emitted dict has no `'duration'` key at all, so
`download_segments`'s very first duration sum raises `KeyError`:
downstream duration accounting is undefined, not zero-based. -/
theorem url_line_without_tag_lacks_duration :
    parse_m3u8_file "segment1.ts" = .ok [⟨none, some "segment1.ts"⟩]
    ∧ total_duration? [⟨none, some "segment1.ts"⟩] = none
    ∧ download_segments ⟨.ok "segment1.ts", fun _ => .ok "", true, "/w"⟩
        [⟨none, some "segment1.ts"⟩] none none = .error .keyErr :=
  ⟨by decide, by decide, by decide⟩

/-! ### C4: trailing duration tag and blank lines -/

/-- C4 counterexample: a blank line following a trailing duration tag
is itself taken as the URL line (only the `#` prefix is tested, not
emptiness), so `parse` emits a completed entry with an empty URL
instead of dropping the dangling descriptor. -/
theorem blank_line_after_tag_emits_entry :
    parse_m3u8_file "#EXTINF:4.0,\n\n" = .ok [⟨some 4, some ""⟩] := by
  with_unfolding_all decide

/-- C4 amended: a line is taken as a segment URL exactly when it does
not start with `#` — an empty line therefore also counts as a URL —
so a final duration tag followed by end-of-input, or only by further
`#`-prefixed lines (comments and directives, any duration tag among
them carrying a parseable float), contributes no trailing entry: the
dangling descriptor is dropped; a blank line after the trailing tag,
however, completes the pending entry with an empty URL. -/
theorem dangling_duration_tag_dropped :
    (∀ (ls suffix : List String) (cur : PySegDict) (out : List PySegDict),
        (∀ line ∈ suffix, pyStartsWith line "#" = true ∧
            (pyStartsWith line "#EXTINF:" = true →
              (extinfDuration? line).isSome = true)) →
        parseLines ls cur = .ok out →
        parseLines (ls ++ suffix) cur = .ok out)
    ∧ (∀ (rest : List String) (cur : PySegDict) (out : List PySegDict),
        parseLines rest ⟨none, none⟩ = .ok out →
        parseLines ("" :: rest) cur =
          .ok (⟨cur.duration?, some ""⟩ :: out)) := by
  have hcomment : ∀ (suffix : List String),
      (∀ line ∈ suffix, pyStartsWith line "#" = true ∧
          (pyStartsWith line "#EXTINF:" = true →
            (extinfDuration? line).isSome = true)) →
      ∀ cur : PySegDict, parseLines suffix cur = .ok [] := by
    intro suffix
    induction suffix with
    | nil => exact fun _ _ => rfl
    | cons l rest ih =>
      intro hl cur
      have htail : ∀ line ∈ rest, pyStartsWith line "#" = true ∧
          (pyStartsWith line "#EXTINF:" = true →
            (extinfDuration? line).isSome = true) :=
        fun x hx => hl x (List.mem_cons_of_mem _ hx)
      have hhead := hl l (List.mem_cons_self _ _)
      by_cases h1 : pyStartsWith l "#EXTINF:" = true
      · have hsome := hhead.2 h1
        rcases hd : extinfDuration? l with _ | d
        · rw [hd] at hsome; simp at hsome
        · rw [parseLines, if_pos h1, hd]
          exact ih htail _
      · rw [parseLines, if_neg h1, if_pos hhead.1]
        exact ih htail _
  constructor
  · intro ls
    induction ls with
    | nil =>
      intro suffix cur out hsuf hok
      have h2 : ([] : List PySegDict) = out := by injection hok
      rw [List.nil_append, ← h2]
      exact hcomment suffix hsuf cur
    | cons l ls ih =>
      intro suffix cur out hsuf hok
      rw [List.cons_append]
      rw [parseLines] at hok ⊢
      by_cases h1 : pyStartsWith l "#EXTINF:" = true
      · rw [if_pos h1] at hok ⊢
        rcases hd : extinfDuration? l with _ | d
        · rw [hd] at hok
          exact Except.noConfusion hok
        · rw [hd] at hok
          exact ih suffix _ out hsuf hok
      · rw [if_neg h1] at hok ⊢
        by_cases h2 : pyStartsWith l "#" = true
        · rw [if_pos h2] at hok ⊢
          exact ih suffix _ out hsuf hok
        · rw [if_neg h2] at hok ⊢
          rcases hrec : parseLines ls ⟨none, none⟩ with err | out'
          · rw [hrec] at hok
            exact Except.noConfusion hok
          · rw [hrec] at hok
            rw [ih suffix ⟨none, none⟩ out' hsuf hrec]
            exact hok
  · intro rest cur out hok
    have h1 : pyStartsWith "" "#EXTINF:" = false := rfl
    have h2 : pyStartsWith "" "#" = false := rfl
    have h3 : pyStrip "" = "" := rfl
    rw [parseLines, h1]
    simp only [Bool.false_eq_true, if_false]
    rw [h2]
    simp only [Bool.false_eq_true, if_false]
    rw [hok, h3]

theorem dangling_duration_tag_dropped_witness :
    parseLines (["#EXTINF:4.0,", "u.ts"] ++ ["#EXTINF:5,", "#EXT-X-ENDLIST"])
        ⟨none, none⟩ =
      .ok [⟨some 4, some "u.ts"⟩] :=
  dangling_duration_tag_dropped.1 ["#EXTINF:4.0,", "u.ts"]
    ["#EXTINF:5,", "#EXT-X-ENDLIST"] ⟨none, none⟩
    [⟨some 4, some "u.ts"⟩]
    (by with_unfolding_all decide) (by with_unfolding_all decide)

/-! ### C7: fatality of the error kinds -/

/-- C7 counterexample: a duration tag whose duration field is not a
valid float raises `ValueError` inside parsing, which reaches the
top-level handler and terminates the process with exit status 1 — a
malformed manifest line that is fatal rather than degraded by
omission. -/
theorem malformed_extinf_line_is_fatal :
    parse_m3u8_file "#EXTINF:oops,\nseg1.ts" = .error ()
    ∧ mainExitCode
        ⟨.ok "#EXTINF:oops,\nseg1.ts", fun _ => .ok "", true, "/w"⟩
        none none = 1 :=
  ⟨by decide, by decide⟩

/-- Parsing never errors when every duration tag carries a float the
parser accepts: all other malformed lines degrade by omission. -/
theorem parseLines_ok_of_tags_parse :
    ∀ (ls : List String) (cur : PySegDict),
      (∀ line ∈ ls, pyStartsWith line "#EXTINF:" = true →
          (extinfDuration? line).isSome = true) →
      ∃ out, parseLines ls cur = .ok out := by
  intro ls
  induction ls with
  | nil => exact fun cur _ => ⟨[], rfl⟩
  | cons l ls ih =>
    intro cur hl
    have htail : ∀ line ∈ ls, pyStartsWith line "#EXTINF:" = true →
        (extinfDuration? line).isSome = true :=
      fun x hx h => hl x (List.mem_cons_of_mem _ hx) h
    by_cases h1 : pyStartsWith l "#EXTINF:" = true
    · have hsome := hl l (List.mem_cons_self _ _) h1
      rcases hd : extinfDuration? l with _ | d
      · rw [hd] at hsome; simp at hsome
      · obtain ⟨out, hout⟩ := ih ⟨some d, cur.url?⟩ htail
        refine ⟨out, ?_⟩
        rw [parseLines, if_pos h1, hd]
        exact hout
    · by_cases h2 : pyStartsWith l "#" = true
      · obtain ⟨out, hout⟩ := ih cur htail
        refine ⟨out, ?_⟩
        rw [parseLines, if_neg h1, if_pos h2]
        exact hout
      · obtain ⟨out, hout⟩ := ih ⟨none, none⟩ htail
        refine ⟨⟨cur.duration?, some (pyStrip l)⟩ :: out, ?_⟩
        rw [parseLines, if_neg h1, if_neg h2, hout]

/-- C7 amended: every `Fatal` outcome — the four documented kinds plus
the uncaught `ValueError`/`KeyError` — terminates the modelled pipeline
with exit status 1 and success is exactly exit status 0, while
manifest lines other than duration tags never make parsing error: a
duration tag with an unparseable duration is the one malformed-line
case that is fatal instead of degrading by omission. -/
theorem fatal_error_kinds_terminal :
    (∀ (env : NetEnv) (start_time? end_time? : Option String),
        mainExitCode env start_time? end_time? = 0 ↔
          ∃ r, download_video env start_time? end_time? = .ok r)
    ∧ (∀ (env : NetEnv) (start_time? end_time? : Option String) (f : Fatal),
        download_video env start_time? end_time? = .error f →
        mainExitCode env start_time? end_time? = 1)
    ∧ (∀ content : String,
        (∀ line ∈ splitLines content,
            pyStartsWith line "#EXTINF:" = true →
            (extinfDuration? line).isSome = true) →
        ∃ out, parse_m3u8_file content = .ok out) := by
  refine ⟨?_, ?_, ?_⟩
  · intro env s? e?
    unfold mainExitCode
    rcases h : download_video env s? e? with f | r
    · simp
    · simp
  · intro env s? e? f h
    unfold mainExitCode
    rw [h]
  · intro content h
    exact parseLines_ok_of_tags_parse (splitLines content) ⟨none, none⟩ h

theorem fatal_error_kinds_terminal_witness :
    mainExitCode ⟨.error (), fun _ => .ok "", true, "/w"⟩ none none = 1 :=
  fatal_error_kinds_terminal.2.1 ⟨.error (), fun _ => .ok "", true, "/w"⟩
    none none .fetchFailed (by decide)
